import Mathlib

/-!
# Verification of the File Search Server against its specification

Shallow embedding of `server.py` and `file-search_algorithms.py` from the
`File_Search_Server` repository.  Python strings are modelled as `List Char`,
Python's `str.strip()` as `pstrip`, file I/O outcomes as `FileReadResult`,
and the lazily-initialized `self.data` attribute of `FileSearchServer` as an
`Option (List Str)` threaded through `process_query`.
-/

set_option maxHeartbeats 1000000

/-- Python strings are sequences of (unicode) characters. -/
abbrev Str := List Char

/-- The whitespace characters removed by Python's `str.strip()`
(space, tab, newline, carriage return, vertical tab, form feed;
the ASCII fragment relevant to this code base). -/
def isPySpace (c : Char) : Bool :=
  c = ' ' || c = '\t' || c = '\n' || c = '\r' || c = '\x0b' || c = '\x0c'

/-- Python's `s.strip()`: drop whitespace from both ends. -/
def pstrip (s : Str) : Str :=
  ((s.dropWhile isPySpace).reverse.dropWhile isPySpace).reverse

/-- Outcome of attempting `open(linuxpath, "r"); file.readlines()` at a given
moment: success with the line list, `FileNotFoundError`, or any other
`IOError` (e.g. permission denial). -/
inductive FileReadResult where
  | ok (lines : List Str)
  | missing
  | ioError
deriving DecidableEq

/-- `server.py` line 117:
`results = [line.strip() for line in data if query == line.strip()]`
(the query has already been stripped at line 116). -/
def searchResults (data : List Str) (query : Str) : List Str :=
  (data.map pstrip).filter (fun l => pstrip query == l)

/-- `server.py` line 119:
`return "STRING EXISTS" if results else "STRING NOT FOUND"`. -/
def verdictOf (data : List Str) (query : Str) : String :=
  if (searchResults data query).isEmpty then "STRING NOT FOUND" else "STRING EXISTS"

/-- `FileSearchServer.process_query` (`server.py` lines 99-125).
`reread` is the `REREAD_ON_QUERY` configuration flag, `st` models the
presence/content of the lazily-set `self.data` attribute, and `file` is the
outcome the file read would have at this moment.  Returns the reply together
with the new `self.data` state.  The `except FileNotFoundError` branch
returns `"STRING NOT FOUND"`; the generic `except` branch returns
`"ERROR: Internal server error"`; in the cached branch a failed read leaves
`self.data` unset. -/
def process_query (reread : Bool) (st : Option (List Str)) (file : FileReadResult)
    (query : Str) : String × Option (List Str) :=
  if reread then
    match file with
    | .ok data => (verdictOf data query, st)
    | .missing => ("STRING NOT FOUND", st)
    | .ioError => ("ERROR: Internal server error", st)
  else
    match st with
    | some d => (verdictOf d query, st)
    | none =>
      match file with
      | .ok data => (verdictOf data query, some data)
      | .missing => ("STRING NOT FOUND", none)
      | .ioError => ("ERROR: Internal server error", none)

/-- `FileSearchServer.process_request` (`server.py` lines 76-97), data path
only.  `payload` is the byte sequence the client sent (ASCII in all scenarios
considered, so one char = one byte); `data = client_socket.recv(BUFFER_SIZE)`
returns at most `bufSize` bytes, modelled by `payload.take bufSize`.  Then
line 83 checks `len(data) > BUFFER_SIZE`, line 87 checks `not data.strip()`,
otherwise the query is dispatched to `process_query`. -/
def process_request (bufSize : Nat) (reread : Bool) (st : Option (List Str))
    (file : FileReadResult) (payload : Str) : String :=
  let data := payload.take bufSize
  if data.length > bufSize then "ERROR: Payload too large"
  else if (pstrip data).isEmpty then "ERROR: Empty query"
  else (process_query reread st file data).fst

/-- The reply of `process_query` is always one of the three fixed strings. -/
theorem process_query_fst_cases (reread : Bool) (st : Option (List Str))
    (file : FileReadResult) (query : Str) :
    (process_query reread st file query).fst = "STRING EXISTS" ∨
    (process_query reread st file query).fst = "STRING NOT FOUND" ∨
    (process_query reread st file query).fst = "ERROR: Internal server error" := by
  unfold process_query verdictOf
  rcases reread with _ | _ <;> rcases file with data | _ | _ <;>
    rcases st with _ | d <;> simp <;> split <;> simp <;> tauto

/-- The filtered result list of the server search is empty exactly when no
raw line strips to the stripped query. -/
theorem searchResults_eq_nil_iff (data : List Str) (query : Str) :
    searchResults data query = [] ↔ ¬ ∃ line ∈ data, pstrip line = pstrip query := by
  unfold searchResults
  rw [List.filter_eq_nil_iff]
  constructor
  · intro h ⟨line, hline, heq⟩
    have hmem := h (pstrip line) (List.mem_map_of_mem pstrip hline)
    simp only [beq_iff_eq] at hmem
    exact hmem heq.symm
  · intro h a ha hq
    rcases List.mem_map.1 ha with ⟨line, hline, rfl⟩
    simp only [beq_iff_eq] at hq
    exact h ⟨line, hline, hq.symm⟩

/-- The search verdict is `"STRING EXISTS"` exactly when some raw line strips
to the stripped query. -/
theorem verdictOf_exists_iff (data : List Str) (query : Str) :
    verdictOf data query = "STRING EXISTS" ↔
      ∃ line ∈ data, pstrip line = pstrip query := by
  rw [← not_iff_not, ← searchResults_eq_nil_iff]
  unfold verdictOf
  by_cases h : searchResults data query = [] <;> simp [h, List.isEmpty_iff]

/-- The search verdict is `"STRING NOT FOUND"` exactly when no raw line
strips to the stripped query. -/
theorem verdictOf_not_found_iff (data : List Str) (query : Str) :
    verdictOf data query = "STRING NOT FOUND" ↔
      ¬ ∃ line ∈ data, pstrip line = pstrip query := by
  rw [← searchResults_eq_nil_iff]
  unfold verdictOf
  by_cases h : searchResults data query = [] <;> simp [h, List.isEmpty_iff]

/-- C1: for every query and every successfully loaded dataset, the server's
`process_query` replies `"STRING EXISTS"` iff some dataset line, after
trimming, equals the trimmed query (byte-exact, whole-line equality), and
replies `"STRING NOT FOUND"` otherwise. -/
theorem C1_process_query_whole_line_equality (data : List Str) (query : Str)
    (st : Option (List Str)) :
    ((process_query true st (.ok data) query).fst = "STRING EXISTS" ↔
       ∃ line ∈ data, pstrip line = pstrip query) ∧
    ((process_query true st (.ok data) query).fst = "STRING NOT FOUND" ↔
       ¬ ∃ line ∈ data, pstrip line = pstrip query) := by
  constructor
  · simpa [process_query] using verdictOf_exists_iff data query
  · simpa [process_query] using verdictOf_not_found_iff data query

/-- C8: under Transient mode (`REREAD_ON_QUERY = True`) every query re-reads
the file, so the verdict depends only on the file content at query time (and
the cached attribute is neither consulted nor changed); under Cached mode the
first successful query stores the line sequence, and every subsequent query
answers from that stored sequence and leaves it unchanged, so the file state
at later queries is never observed. -/
theorem C8_consistency_modes :
    (∀ (st : Option (List Str)) (file : FileReadResult) (query : Str),
        process_query true st file query =
          ((process_query true none file query).fst, st)) ∧
    (∀ (d0 : List Str) (query : Str),
        process_query false none (.ok d0) query =
          ((process_query true none (.ok d0) query).fst, some d0)) ∧
    (∀ (d0 : List Str) (file : FileReadResult) (query : Str),
        process_query false (some d0) file query =
          ((process_query true none (.ok d0) query).fst, some d0)) := by
  refine ⟨?_, ?_, ?_⟩
  · intro st file query
    rcases file with data | _ | _ <;> rfl
  · intro d0 query
    rfl
  · intro d0 file query
    rcases file with data | _ | _ <;> rfl

/-- C7: whenever the dataset file is actually read (Transient mode, or Cached
mode before the first successful load), a missing file makes `process_query`
reply `"STRING NOT FOUND"` for every query, while any other I/O failure
yields `"ERROR: Internal server error"` and is never converted to
not-found. -/
theorem C7_missing_file_and_io_fault (reread : Bool) (st : Option (List Str))
    (query : Str) (h : reread = true ∨ st = none) :
    (process_query reread st .missing query).fst = "STRING NOT FOUND" ∧
    (process_query reread st .ioError query).fst = "ERROR: Internal server error" := by
  rcases h with rfl | rfl
  · exact ⟨rfl, rfl⟩
  · rcases reread with _ | _ <;> exact ⟨rfl, rfl⟩

/-- Witness for `C7_missing_file_and_io_fault` at a concrete configuration. -/
theorem C7_missing_file_and_io_fault_witness :
    (process_query true none .missing ['a'] ).fst = "STRING NOT FOUND" ∧
    (process_query true none .ioError ['a'] ).fst = "ERROR: Internal server error" :=
  C7_missing_file_and_io_fault true none ['a'] (Or.inl rfl)

/-- `pstrip` leaves a run of `'A'` characters unchanged. -/
theorem pstrip_replicate_A (n : Nat) :
    pstrip (List.replicate n 'A') = List.replicate n 'A' := by
  have hdrop : ∀ m : Nat, (List.replicate m 'A').dropWhile isPySpace =
      List.replicate m 'A' := by
    intro m
    cases m with
    | zero => rfl
    | succ k => simp [List.replicate_succ, List.dropWhile, isPySpace]
  unfold pstrip
  rw [hdrop, List.reverse_replicate, hdrop, List.reverse_replicate]

/-- C2 counter-evidence, part 1: the reply `"ERROR: Payload too large"` is
unreachable.  `recv(BUFFER_SIZE)` returns at most `BUFFER_SIZE` bytes, so the
guard `len(data) > BUFFER_SIZE` at `server.py` line 83 can never fire. -/
theorem process_request_never_payload_too_large (bufSize : Nat) (reread : Bool)
    (st : Option (List Str)) (file : FileReadResult) (payload : Str) :
    process_request bufSize reread st file payload ≠ "ERROR: Payload too large" := by
  unfold process_request
  have hlen : (payload.take bufSize).length ≤ bufSize := by
    simp [List.length_take]
  rw [if_neg (by omega)]
  split
  · decide
  · rcases process_query_fst_cases reread st file (payload.take bufSize) with h | h | h <;>
      rw [h] <;> decide

/-- C2 counter-evidence, part 2: with the default `BUFFER_SIZE = 1024`, a
client payload of 1025 `'A'` bytes is silently truncated to 1024 bytes and
matched as an ordinary query (here against an empty dataset), instead of
producing `"ERROR: Payload too large"`. -/
theorem C2_oversize_payload_not_rejected :
    process_request 1024 true none (.ok []) (List.replicate 1025 'A') =
      "STRING NOT FOUND" ∧
    process_request 1024 true none (.ok []) (List.replicate 1025 'A') ≠
      "ERROR: Payload too large" := by
  constructor
  · unfold process_request
    rw [List.take_replicate, show min 1024 1025 = 1024 from by omega]
    rw [if_neg (by rw [List.length_replicate]; omega)]
    rw [if_neg (by rw [pstrip_replicate_A, List.isEmpty_replicate]; simp)]
    rfl
  · exact process_request_never_payload_too_large 1024 true none (.ok []) _

/-! ## The matching algorithm library (`file-search_algorithms.py`) -/

/-- `naive_search` (`file-search_algorithms.py` lines 8-19):
`return [line.strip() for line in data if line.strip() == query]`. -/
def naive_search (data : List Str) (query : Str) : List Str :=
  (data.map pstrip).filter (fun l => l == query)

/-- The `low/high` loop of `binary_search` (`file-search_algorithms.py`
lines 34-43).  Python `//` is floor division, which on `Int` with the
positive divisor 2 coincides with `Int` division (`Int.ediv`).  `fuel`
bounds the number of iterations; the span `high - low + 1` shrinks at every
step, so the fuel supplied by `binary_search` makes the zero-fuel fallback
unreachable.  `sorted_data[mid]` is written `sorted_data.getD mid.toNat []`;
the loop invariant `0 <= low <= mid <= high < len(sorted_data)` keeps the
index in range exactly as in the Python code. -/
def bsLoop (sorted_data : List Str) (query : Str) : Nat → Int → Int → List Str
  | 0, _, _ => []
  | fuel+1, low, high =>
    if low ≤ high then
      if sorted_data.getD ((low + high) / 2).toNat [] = query then
        [sorted_data.getD ((low + high) / 2).toNat []]
      else if sorted_data.getD ((low + high) / 2).toNat [] < query then
        bsLoop sorted_data query fuel ((low + high) / 2 + 1) high
      else
        bsLoop sorted_data query fuel low ((low + high) / 2 - 1)
    else []

/-- `binary_search` (`file-search_algorithms.py` lines 22-43):
`sorted_data = sorted(line.strip() for line in data)` followed by the binary
search loop.  Python `sorted` on strings uses the lexicographic order on
code-point sequences, i.e. the lexicographic `LinearOrder (List Char)`. -/
def binary_search (data : List Str) (query : Str) : List Str :=
  bsLoop ((data.map pstrip).mergeSort (fun a b => decide (a ≤ b))) query
    (((data.map pstrip).mergeSort (fun a b => decide (a ≤ b))).length + 1) 0
    ((((data.map pstrip).mergeSort (fun a b => decide (a ≤ b))).length : Int) - 1)

/-- The loop returns `[]` or the singleton `[query]`. -/
theorem bsLoop_eq_nil_or_singleton (sorted_data : List Str) (query : Str) :
    ∀ (fuel : Nat) (low high : Int),
      bsLoop sorted_data query fuel low high = [] ∨
      bsLoop sorted_data query fuel low high = [query] := by
  intro fuel
  induction fuel with
  | zero => intro low high; left; rfl
  | succ n ih =>
    intro low high
    unfold bsLoop
    split
    · split
      · rename_i hv
        right; rw [hv]
      · split
        · exact ih _ _
        · exact ih _ _
    · left; rfl

/-- If the loop finds something, the query is an element of the searched
list (the probed index is always in range). -/
theorem bsLoop_ne_nil_mem (sorted_data : List Str) (query : Str) :
    ∀ (fuel : Nat) (low high : Int), 0 ≤ low → high < sorted_data.length →
      bsLoop sorted_data query fuel low high ≠ [] → query ∈ sorted_data := by
  intro fuel
  induction fuel with
  | zero => intro low high _ _ h; exact absurd rfl h
  | succ n ih =>
    intro low high h0 hh hne
    unfold bsLoop at hne
    rcases le_or_lt low high with hle | hlt
    · rw [if_pos hle] at hne
      set mid := (low + high) / 2 with hmid
      have hmid0 : 0 ≤ mid := by omega
      have hrange : mid.toNat < sorted_data.length := by omega
      by_cases hv : sorted_data.getD mid.toNat [] = query
      · rw [← hv]
        rw [List.getD_eq_getElem sorted_data [] hrange]
        exact List.getElem_mem hrange
      · rw [if_neg hv] at hne
        split at hne
        · exact ih (mid + 1) high (by omega) hh hne
        · exact ih low (mid - 1) h0 (by omega) hne
    · rw [if_neg (not_le.2 hlt)] at hne
      exact absurd rfl hne

/-- If the query sits at a position of the sorted list inside the current
window and the fuel covers the window span, the loop finds it. -/
theorem bsLoop_complete (sorted_data : List Str) (query : Str)
    (hsort : sorted_data.Sorted (· ≤ ·)) :
    ∀ (fuel : Nat) (low high : Int) (idx : Fin sorted_data.length),
      sorted_data.get idx = query →
      0 ≤ low →
      low ≤ (idx : Int) → (idx : Int) ≤ high →
      high < sorted_data.length →
      high + 1 - low ≤ fuel →
      bsLoop sorted_data query fuel low high ≠ [] := by
  intro fuel
  induction fuel with
  | zero => intro low high idx _ _ hlo hhi _ hfuel; omega
  | succ n ih =>
    intro low high idx hq h0 hlo hhi hlen hfuel
    have hle : low ≤ high := by omega
    unfold bsLoop
    rw [if_pos hle]
    set mid := (low + high) / 2 with hmid
    have hmid0 : 0 ≤ mid := by omega
    have hmidlo : low ≤ mid := by omega
    have hmidhi : mid ≤ high := by omega
    have hrange : mid.toNat < sorted_data.length := by omega
    by_cases hv : sorted_data.getD mid.toNat [] = query
    · rw [if_pos hv]; simp
    · rw [if_neg hv]
      have hvget : sorted_data.getD mid.toNat [] = sorted_data.get ⟨mid.toNat, hrange⟩ := by
        rw [List.getD_eq_getElem sorted_data [] hrange]; rfl
      split
      · rename_i hlt
        -- probed value < query, so the query must sit strictly right of mid
        have hidx : mid + 1 ≤ (idx : Int) := by
          by_contra hcon
          push_neg at hcon
          rcases Nat.lt_or_ge (idx : Nat) mid.toNat with hlt2 | hge
          · have hrel : sorted_data.get idx ≤ sorted_data.get ⟨mid.toNat, hrange⟩ :=
              hsort.rel_get_of_lt (by exact hlt2)
            rw [hq, ← hvget] at hrel
            exact absurd (lt_of_le_of_lt hrel hlt) (lt_irrefl _)
          · have heq : (idx : Nat) = mid.toNat := by omega
            apply hv
            rw [hvget, ← hq]
            congr 1
            exact Fin.ext heq.symm
        exact ih (mid + 1) high idx hq (by omega) hidx hhi hlen (by omega)
      · rename_i hnlt
        have hgt : query < sorted_data.getD mid.toNat [] :=
          lt_of_le_of_ne (le_of_not_lt hnlt) (Ne.symm hv)
        have hidx : (idx : Int) ≤ mid - 1 := by
          by_contra hcon
          push_neg at hcon
          rcases Nat.lt_or_ge mid.toNat (idx : Nat) with hlt2 | hge
          · have hrel : sorted_data.get ⟨mid.toNat, hrange⟩ ≤ sorted_data.get idx :=
              hsort.rel_get_of_lt (by exact hlt2)
            rw [hq, ← hvget] at hrel
            exact absurd (lt_of_le_of_lt hrel hgt) (lt_irrefl _)
          · have heq : (idx : Nat) = mid.toNat := by omega
            apply hv
            rw [hvget, ← hq]
            congr 1
            exact Fin.ext heq.symm
        exact ih low (mid - 1) idx hq h0 hlo hidx (by omega) (by omega)

/-- The sorted copy built by `binary_search` is sorted for the lexicographic
order. -/
theorem sortedCopy_sorted (l : List Str) :
    (l.mergeSort (fun a b => decide (a ≤ b))).Sorted (· ≤ ·) := by
  have htrans : ∀ (a b c : Str),
      (fun a b : Str => decide (a ≤ b)) a b → (fun a b : Str => decide (a ≤ b)) b c →
      (fun a b : Str => decide (a ≤ b)) a c := by
    intro a b c hab hbc
    simp only [decide_eq_true_eq] at *
    exact le_trans hab hbc
  have htotal : ∀ (a b : Str),
      ((fun a b : Str => decide (a ≤ b)) a b || (fun a b : Str => decide (a ≤ b)) b a) = true := by
    intro a b
    simp only [Bool.or_eq_true, decide_eq_true_eq]
    exact le_total a b
  have h := List.sorted_mergeSort htrans htotal l
  exact h.imp (fun hab => of_decide_eq_true hab)

/-- C6: `binary_search` returns at most one line, and returns a non-empty
result exactly when the query occurs among the trimmed dataset lines
(existence-only semantics; duplicates are never enumerated). -/
theorem C6_binary_search_membership (data : List Str) (query : Str) :
    (binary_search data query).length ≤ 1 ∧
    (binary_search data query ≠ [] ↔ query ∈ data.map pstrip) := by
  set sd := (data.map pstrip).mergeSort (fun a b => decide (a ≤ b)) with hsd
  have hbs : binary_search data query =
      bsLoop sd query (sd.length + 1) 0 ((sd.length : Int) - 1) := rfl
  constructor
  · rcases bsLoop_eq_nil_or_singleton sd query (sd.length + 1) 0
        ((sd.length : Int) - 1) with h | h <;> rw [hbs, h] <;> simp
  · constructor
    · intro hne
      rw [hbs] at hne
      have hmem := bsLoop_ne_nil_mem sd query (sd.length + 1) 0
        ((sd.length : Int) - 1) (by omega) (by omega) hne
      rw [hsd] at hmem
      exact List.mem_mergeSort.1 hmem
    · intro hmem
      have hmem' : query ∈ sd := by rw [hsd]; exact List.mem_mergeSort.2 hmem
      rcases List.mem_iff_get.1 hmem' with ⟨idx, hget⟩
      rw [hbs]
      have hlt := idx.isLt
      exact bsLoop_complete sd query (hsd ▸ sortedCopy_sorted (data.map pstrip))
        (sd.length + 1) 0 ((sd.length : Int) - 1) idx hget (by omega)
        (by omega) (by omega) (by omega) (by omega)

/-! ### Knuth-Morris-Pratt (`kmp_search`, lines 46-91) -/

/-- The `while i < len(pattern)` loop of `compute_lps`
(`file-search_algorithms.py` lines 61-71), fuel-structural.  Each iteration
strictly decreases `2*(len(pattern) - i) + length`, so the fuel supplied by
`compute_lps` makes the zero-fuel fallback unreachable; both character
accesses stay in range thanks to the loop invariant `length < i <
len(pattern)`. -/
def lpsLoop (pattern : Str) : Nat → List Nat → Nat → Nat → List Nat
  | 0, lps, _, _ => lps
  | fuel+1, lps, length, i =>
    if i < pattern.length then
      if pattern.getD i default = pattern.getD length default then
        lpsLoop pattern fuel (lps.set i (length + 1)) (length + 1) (i + 1)
      else if length ≠ 0 then
        lpsLoop pattern fuel lps (lps.getD (length - 1) 0) i
      else
        lpsLoop pattern fuel (lps.set i 0) 0 (i + 1)
    else lps

/-- `compute_lps` (`file-search_algorithms.py` lines 57-72):
`lps = [0] * len(pattern); length = 0; i = 1; while ...`. -/
def compute_lps (pattern : Str) : List Nat :=
  lpsLoop pattern (2 * pattern.length + 1) (List.replicate pattern.length 0) 0 1

/-- Setting index `i` to a value `≤ i` preserves the `lps`-table bound. -/
theorem getD_set_le {l : List Nat} {i v : Nat} (hv : v ≤ i)
    (hl : ∀ t, l.getD t 0 ≤ t) : ∀ t, (l.set i v).getD t 0 ≤ t := by
  intro t
  by_cases hlen : t < l.length
  · have hlen' : t < (l.set i v).length := by simpa using hlen
    rw [List.getD_eq_getElem _ _ hlen']
    by_cases ht : i = t
    · subst ht
      rw [List.getElem_set_self]
      exact hv
    · rw [List.getElem_set_ne ht]
      rw [← List.getD_eq_getElem _ 0 hlen]
      exact hl t
  · rw [List.getD_eq_get?, List.get?_eq_none.2 (by simpa using not_lt.1 hlen)]
    exact Nat.zero_le t

/-- Every entry of the table produced by the `compute_lps` loop is bounded by
its index, provided the incoming table is (invariant, independent of fuel). -/
theorem lpsLoop_bound (pattern : Str) :
    ∀ (fuel : Nat) (lps : List Nat) (length i : Nat),
      (∀ t, lps.getD t 0 ≤ t) → length < i →
      ∀ t, (lpsLoop pattern fuel lps length i).getD t 0 ≤ t := by
  intro fuel
  induction fuel with
  | zero => intro lps length i h _ t; exact h t
  | succ n ih =>
    intro lps length i h hlt t
    unfold lpsLoop
    split
    · split
      · exact ih _ _ _ (getD_set_le (by omega) h) (by omega) t
      · split
        · exact ih _ _ _ h (by have := h (length - 1); omega) t
        · exact ih _ _ _ (getD_set_le (Nat.zero_le i) h) (by omega) t
    · exact h t

/-- Every entry of `compute_lps` is bounded by its index: the failure table
maps a position to the length of a proper prefix, so `lps[t] ≤ t`. -/
theorem compute_lps_bound (pattern : Str) :
    ∀ t, (compute_lps pattern).getD t 0 ≤ t := by
  apply lpsLoop_bound
  · intro t
    rw [List.getD_eq_get?]
    cases h : (List.replicate pattern.length (0:Nat)).get? t with
    | none => exact Nat.zero_le t
    | some v =>
      have := List.get?_mem h
      rw [List.eq_of_mem_replicate this]
      exact Nat.zero_le t
  · omega

/-- One iteration of the `kmp_search` text loop (`file-search_algorithms.py`
lines 80-90), executed when `i < len(line)`.  `none` models an uncaught
Python `IndexError` (reachable only for the empty query, where `query[j]`
with `j = 0` is out of range).  Returns the updated `(i, j)` and whether
`line` was appended to the results.  The `elif` re-reads `query[j]` and
`line[i]` at the already-updated indices, and its `i < len(line)` conjunct
short-circuits, exactly as in Python. -/
def kmpStep (query line : Str) (lps : List Nat) (i j : Nat) :
    Option (Nat × Nat × Bool) := do
  let qc ← query.get? j
  let lc ← line.get? i
  let i1 := if qc = lc then i + 1 else i
  let j1 := if qc = lc then j + 1 else j
  if j1 = query.length then
    let nj ← lps.get? (j1 - 1)
    pure (i1, nj, true)
  else if i1 < line.length then
    let qc1 ← query.get? j1
    let lc1 ← line.get? i1
    if qc1 ≠ lc1 then
      if j1 ≠ 0 then
        let nj ← lps.get? (j1 - 1)
        pure (i1, nj, false)
      else
        pure (i1 + 1, j1, false)
    else
      pure (i1, j1, false)
  else
    pure (i1, j1, false)

/-- The `while i < len(line)` loop of `kmp_search` (lines 78-90),
fuel-structural; `none` propagates an `IndexError` (and is also the
out-of-fuel fallback, unreachable for the fuel supplied by `kmp_search`). -/
def kmpLineLoop (query line : Str) (lps : List Nat) :
    Nat → Nat → Nat → List Str → Option (List Str)
  | 0, _, _, _ => none
  | fuel+1, i, j, acc =>
    if i < line.length then
      match kmpStep query line lps i j with
      | none => none
      | some (i2, j2, app) =>
        kmpLineLoop query line lps fuel i2 j2 (if app then acc ++ [line] else acc)
    else some acc

/-- `kmp_search` (`file-search_algorithms.py` lines 46-91): computes the
failure table once, then runs the text loop on each stripped line,
accumulating every match.  `none` models the call raising `IndexError`. -/
def kmp_search (data : List Str) (query : Str) : Option (List Str) :=
  data.foldlM
    (fun acc rawLine =>
      kmpLineLoop query (pstrip rawLine) (compute_lps query)
        (((pstrip rawLine).length + 1) * (query.length + 1) + query.length + 1) 0 0 acc)
    []

/-! ### Boyer-Moore (`boyer_moore_search`, lines 94-159) -/

/-- The assignments `table[pattern[i]] = len(pattern) - 1 - i` made by
`bad_char_table` (`file-search_algorithms.py` lines 105-109), in loop
order.  A Python dict keeps the last assignment per key, so lookups read
the reversed list. -/
def bad_char_pairs (pattern : Str) : List (Char × Int) :=
  (List.range (pattern.length - 1)).map
    (fun i => (pattern.getD i default, (pattern.length : Int) - 1 - i))

/-- `bad_char.get(c, dflt)` on the dict built by `bad_char_table`. -/
def bad_char_get (pattern : Str) (c : Char) (dflt : Int) : Int :=
  (((bad_char_pairs pattern).reverse).lookup c).getD dflt

/-- `is_prefix(pattern, p)` (`file-search_algorithms.py` lines 123-129;
the helper name is shortened here): checks `pattern[i] == pattern[j]` with
`j = i - p` for `i` in `[p, len(pattern))`, returning `False` at the first
mismatch. -/
def is_pref (pattern : Str) (p : Nat) : Bool :=
  (List.range' p (pattern.length - p)).all
    (fun i => pattern.getD i default == pattern.getD (i - p) default)

/-- The counting loop of `suffix_length` (lines 131-140): `i` walks from
`p` down to `0` and `j` from `len(pattern) - 1` down, incrementing `length`
while the characters match and breaking at the first mismatch.  The first
argument is the number of remaining iterations (`i + 1`). -/
def slLoop (pattern : Str) : Nat → Nat → Nat → Nat
  | 0, _, length => length
  | i+1, j, length =>
    if pattern.getD i default == pattern.getD j default then
      slLoop pattern i (j - 1) (length + 1)
    else length

/-- `suffix_length(pattern, p)` (`file-search_algorithms.py` lines 131-140). -/
def suffix_length (pattern : Str) (p : Nat) : Nat :=
  slLoop pattern (p + 1) (pattern.length - 1) 0

/-- `good_suffix_table` (`file-search_algorithms.py` lines 111-121): the
first pass walks `i` from `len(pattern)-1` down to `0`, updating
`last_prefix` before writing `table[len-1-i] = last_prefix - i + len - 1`;
the second pass walks `i` from `0` to `len(pattern)-2` and overwrites
`table[suffix_length(pattern, i)] = len - 1 - i + suffix_length(pattern, i)`. -/
def good_suffix_table (pattern : Str) : List Int :=
  let m := pattern.length
  let first := ((List.range m).reverse).foldl
    (fun st i =>
      let lp := if is_pref pattern (i + 1) then i + 1 else st.2
      (st.1.set (m - 1 - i) ((lp : Int) - i + m - 1), lp))
    (List.replicate m (0 : Int), m)
  (List.range (m - 1)).foldl
    (fun table i =>
      table.set (suffix_length pattern i)
        ((m : Int) - 1 - i + suffix_length pattern i))
    first.1

/-- The backwards comparison loop of `boyer_moore_search` (lines 151-153):
`while j >= 0 and line[i] == query[j]: i -= 1; j -= 1`.  The first argument
bounds the iterations (at most `j + 1` are possible). -/
def bmInner (line query : Str) : Nat → Int → Int → Int × Int
  | 0, i, j => (i, j)
  | fuel+1, i, j =>
    if 0 ≤ j ∧ line.getD i.toNat default = query.getD j.toNat default then
      bmInner line query fuel (i - 1) (j - 1)
    else (i, j)

/-- The `while i < len(line)` loop of `boyer_moore_search` (lines 148-158),
fuel-structural.  On a full match (`j < 0`) the line is appended and
`i += len(query) + 1`; otherwise
`i += max(good_suffix[len(query) - 1 - j], bad_char.get(line[i], len(query)))`.
`i` and `j` live in `Int` exactly as the Python values may be negative. -/
def bmLineLoop (query line : Str) (gs : List Int) :
    Nat → Int → List Str → List Str
  | 0, _, acc => acc
  | fuel+1, i, acc =>
    if i < (line.length : Int) then
      let p := bmInner line query query.length i ((query.length : Int) - 1)
      if p.2 < 0 then
        bmLineLoop query line gs fuel (p.1 + query.length + 1) (acc ++ [line])
      else
        bmLineLoop query line gs fuel
          (p.1 + max (gs.getD ((query.length : Int) - 1 - p.2).toNat 0)
                     (bad_char_get query (line.getD p.1.toNat default) query.length))
          acc
    else acc

/-- `boyer_moore_search` (`file-search_algorithms.py` lines 94-159): builds
the bad-character and good-suffix tables once, then scans every stripped
line, starting at `i = len(query) - 1`. -/
def boyer_moore_search (data : List Str) (query : Str) : List Str :=
  data.foldl
    (fun acc rawLine =>
      bmLineLoop query (pstrip rawLine) (good_suffix_table query)
        ((pstrip rawLine).length + query.length + 2)
        ((query.length : Int) - 1) acc)
    []

/-! ### Rabin-Karp (`rabin_karp_search`, lines 162-199) -/

/-- The per-line hash-initialisation loop of `rabin_karp_search`
(`file-search_algorithms.py` lines 186-188):
`for i in range(m): p = (d*p + ord(query[i])) % q; t = (d*t + ord(line[i])) % q`.
`p` continues from the value carried in from the previous processed line
(`p` is initialised once, at line 177, outside the line loop, and never
reset); `t` starts from the fresh `0` of line 185.  Python `%` with the
positive modulus `101` returns a value in `[0, 101)`, which is `Int.emod`. -/
def rkInitHashes (query line : Str) (m : Nat) (p0 : Int) : Int × Int :=
  (List.range m).foldl
    (fun pt i =>
      ((256 * pt.1 + ((query.getD i default).toNat : Int)) % 101,
       (256 * pt.2 + ((line.getD i default).toNat : Int)) % 101))
    (p0, 0)

/-- The sliding-window loop of `rabin_karp_search` (lines 190-197):
for each window start `i` in `range(n - m + 1)` the hashes are compared and
on equality the slice `line[i:i+m]` is verified; for `i < n - m` the hash is
rolled with `t = (d*(t - ord(line[i])*h) + ord(line[i+m])) % q`, followed by
the (with `Int.emod` unreachable) negative-value normalisation
`if t < 0: t += q`. -/
def rkWindowLoop (query line : Str) (p h : Int) (n m : Nat)
    (t0 : Int) (acc : List Str) : Int × List Str :=
  (List.range (n - m + 1)).foldl
    (fun st i =>
      let results :=
        if p = st.1 ∧ (line.drop i).take m = query then st.2 ++ [line] else st.2
      let t1 :=
        if i < n - m then
          let tt := (256 * (st.1 - ((line.getD i default).toNat : Int) * h) +
            ((line.getD (i + m) default).toNat : Int)) % 101
          if tt < 0 then tt + 101 else tt
        else st.1
      (t1, results))
    (t0, acc)

/-- `rabin_karp_search` (`file-search_algorithms.py` lines 162-199) for a
non-empty query: `q = 101`, `d = 256`, `h = pow(d, m-1) % q`; lines shorter
than the query are skipped (leaving `p` untouched); otherwise the
initialisation loop continues accumulating into the carried-over `p` and
the window loop collects the matches.

For the empty query (`m = 0`) the Python code computes the float
`h = pow(256, -1) % 101 = 2 ** (-8)`, never updates `p` (so `p == 0`), and
the rolling update keeps `t == 0.0` exactly (every intermediate float value
there is a small dyadic rational, so no rounding occurs:
`t' = (256*(t - c/256) + c) % 101 = (256*t) % 101 = 0`); hence `p == t`
holds at each of the `n + 1` windows and the empty slice always equals the
query, so every stripped line of length `n` is appended `n + 1` times.
That reachable behaviour is modelled directly in the `m = 0` branch. -/
def rabin_karp_search (data : List Str) (query : Str) : List Str :=
  let m := query.length
  if m = 0 then
    (data.map pstrip).flatMap (fun line => List.replicate (line.length + 1) line)
  else
    let h : Int := (256 ^ (m - 1)) % 101
    -- The outer fold state is `(p, results)`.  The window loop only reads
    -- `p` and rolls its own text hash `t`, so the value carried into the
    -- next processed line is `p` itself (the output of this line's init
    -- loop), exactly as in the Python code where `p` is never assigned
    -- after lines 186-188.
    (data.foldl
      (fun st rawLine =>
        let line := pstrip rawLine
        let n := line.length
        if n < m then st
        else
          let pt := rkInitHashes query line m st.1
          (pt.1, (rkWindowLoop query line pt.1 h n m pt.2 st.2).2))
      ((0 : Int), ([] : List Str))).2

/-! ### Z-algorithm (`z_algorithm_search`, lines 202-242) -/

/-- The `while r < len(s) and s[r] == s[r - l]` extension loop of
`calculate_z_array` (`file-search_algorithms.py` lines 219-220 and
229-230), fuel-structural on `len(s) - r`. -/
def zExtendLoop (s : Str) (l : Nat) : Nat → Nat → Nat
  | 0, r => r
  | fuel+1, r =>
    if r < s.length ∧ s.getD r default = s.getD (r - l) default then
      zExtendLoop s l fuel (r + 1)
    else r

/-- Runs the extension loop to completion (the fuel `len(s) - r` covers
every possible extension). -/
def zExtend (s : Str) (l r : Nat) : Nat := zExtendLoop s l (s.length - r) r

/-- One iteration (index `i`) of the `for i in range(1, len(s))` loop of
`calculate_z_array` (lines 216-232), on the state `(l, r, z) = (st.1,
st.2.1, st.2.2)`.  In the first and third branches the Python code sets
`l`, extends `r` with the `while` loop, writes `z[i] = r - l` and then does
`r -= 1`; in the middle branch it copies `z[i] = z[k]` with `k = i - l`. -/
def zStep (s : Str) (st : Nat × Nat × List Nat) (i : Nat) : Nat × Nat × List Nat :=
  if i > st.2.1 then
    (i, zExtend s i i - 1, st.2.2.set i (zExtend s i i - i))
  else if st.2.2.getD (i - st.1) 0 < st.2.1 - i + 1 then
    (st.1, st.2.1, st.2.2.set i (st.2.2.getD (i - st.1) 0))
  else
    (i, zExtend s i st.2.1 - 1, st.2.2.set i (zExtend s i st.2.1 - i))

/-- `calculate_z_array` (`file-search_algorithms.py` lines 213-233):
`z = [0] * len(s); l, r = 0, 0;` then the loop over `i in range(1, len(s))`. -/
def calculate_z_array (s : Str) : List Nat :=
  ((List.range' 1 (s.length - 1)).foldl (zStep s) (0, 0, List.replicate s.length 0)).2.2

/-- `z_algorithm_search` (`file-search_algorithms.py` lines 202-242):
`concat = query + "$" + ''.join(data)` (the raw lines joined with no
separator), then every position whose Z-value equals `len(query)` appends
the slice `concat[i - len(query) - 1 : i - 1]`. -/
def z_algorithm_search (data : List Str) (query : Str) : List Str :=
  let concat := query ++ ['$'] ++ data.flatten
  let z_array := calculate_z_array concat
  let query_length := query.length
  (List.range' (query_length + 1) (concat.length - (query_length + 1))).foldl
    (fun results i =>
      if z_array.getD i 0 = query_length then
        results ++ [(concat.drop (i - query_length - 1)).take query_length]
      else results)
    []

/-- Every entry returned by `naive_search` is the query itself. -/
theorem naive_search_sound (data : List Str) (query l : Str)
    (h : l ∈ naive_search data query) : l = query := by
  unfold naive_search at h
  have := (List.mem_filter.1 h).2
  simpa using this

/-- Every entry returned by `binary_search` is the query itself. -/
theorem binary_search_sound (data : List Str) (query l : Str)
    (h : l ∈ binary_search data query) : l = query := by
  rcases bsLoop_eq_nil_or_singleton
      ((data.map pstrip).mergeSort (fun a b => decide (a ≤ b))) query
      (((data.map pstrip).mergeSort (fun a b => decide (a ≤ b))).length + 1) 0
      ((((data.map pstrip).mergeSort (fun a b => decide (a ≤ b))).length : Int) - 1)
    with hcase | hcase <;> unfold binary_search at h <;> rw [hcase] at h
  · exact absurd h (List.not_mem_nil l)
  · simpa using h

/-- C3 fails on the code: with dataset lines `["xx", "ab"]` and query
`"ab"`, the linear scan reports a match but `rabin_karp_search` reports
none, because the pattern-hash accumulator `p` (initialised once at line
177) is re-accumulated on top of its previous value at lines 186-188 for
every processed line instead of being reset, so from the second processed
line on the code compares the text hashes against a garbage value. -/
theorem C3_rabin_karp_disagrees_with_linear_scan :
    naive_search [['x','x'], ['a','b']] ['a','b'] = [['a','b']] ∧
    rabin_karp_search [['x','x'], ['a','b']] ['a','b'] = [] := by
  constructor <;> rfl

/-- C5 fails on the code: both lines of `["ab", "ab"]` contain (indeed
equal) the query `"ab"`, yet `rabin_karp_search` returns only the first,
again because the accumulator `p` is not reset between lines. -/
theorem C5_rabin_karp_misses_duplicate_lines :
    rabin_karp_search [['a','b'], ['a','b']] ['a','b'] = [['a','b']] ∧
    (∀ line ∈ [(['a','b'] : Str), ['a','b']], ['a','b'] <:+: pstrip line) := by
  constructor
  · rfl
  · decide

/-- C9: on dataset lines `["ab", "cd"]` and query `"bc"` the Z-algorithm
variant reports a match (one spanning the boundary of the two joined
lines), although no single line contains the query as a substring and none
of the other algorithms reports anything. -/
theorem C9_z_algorithm_cross_line_false_positive :
    z_algorithm_search [['a','b'], ['c','d']] ['b','c'] ≠ [] ∧
    (∀ line ∈ [(['a','b'] : Str), ['c','d']], ¬ (['b','c'] : Str) <:+: line) ∧
    naive_search [['a','b'], ['c','d']] ['b','c'] = [] ∧
    kmp_search [['a','b'], ['c','d']] ['b','c'] = some [] ∧
    boyer_moore_search [['a','b'], ['c','d']] ['b','c'] = [] ∧
    rabin_karp_search [['a','b'], ['c','d']] ['b','c'] = [] := by
  refine ⟨by decide, by decide, rfl, rfl, rfl, rfl⟩

/-- C4 fails on the code: with the empty query, `boyer_moore_search`
returns the non-empty line `"a"` (twice), so the substring family does not
match the empty query against empty-content lines only. -/
theorem C4_counterexample_boyer_moore_empty_query :
    (['a'] : Str) ∈ boyer_moore_search [['a']] [] ∧ (['a'] : Str) ≠ [] := by
  constructor
  · rw [show boyer_moore_search [['a']] [] = [['a'], ['a']] from rfl]
    decide
  · decide

/-- One iteration of the Boyer-Moore text loop with the empty pattern:
`i` starts at `-1`, the inner comparison loop exits immediately with
`j = -1`, the line is appended and `i` advances by `len(query) + 1 = 1`. -/
theorem bmLineLoop_empty_step (line : Str) (gs : List Int) (n : Nat) (i : Int)
    (acc : List Str) (hlt : i < (line.length : Int)) :
    bmLineLoop [] line gs (n + 1) i acc =
      bmLineLoop [] line gs n (i + 1) (acc ++ [line]) := by
  conv_lhs => rw [bmLineLoop]
  rw [if_pos hlt]
  simp [bmInner]

/-- With the empty pattern the Boyer-Moore text loop appends the line once
for every `i` from the current value up to `len(line) - 1`. -/
theorem bmLineLoop_empty (line : Str) (gs : List Int) :
    ∀ (fuel : Nat) (i : Int) (acc : List Str),
      (line.length : Int) - i < fuel →
      bmLineLoop [] line gs fuel i acc =
        acc ++ List.replicate ((line.length : Int) - i).toNat line := by
  intro fuel
  induction fuel with
  | zero =>
    intro i acc hfuel
    rw [show ((line.length : Int) - i).toNat = 0 from by omega, List.replicate_zero,
      List.append_nil]
    rfl
  | succ n ih =>
    intro i acc hfuel
    by_cases hlt : i < (line.length : Int)
    · rw [bmLineLoop_empty_step line gs n i acc hlt,
        ih (i + 1) (acc ++ [line]) (by omega), List.append_assoc]
      congr 1
      rw [show ((line.length : Int) - i).toNat =
            ((line.length : Int) - (i + 1)).toNat + 1 from by omega,
        List.replicate_succ]
      rfl
    · unfold bmLineLoop
      rw [if_neg hlt,
        show ((line.length : Int) - i).toNat = 0 from by omega, List.replicate_zero,
        List.append_nil]

/-- The whole Boyer-Moore fold with the empty query: every stripped line of
length `n` is appended `n + 1` times, in dataset order. -/
theorem bm_empty_fold (data : List Str) :
    ∀ acc : List Str,
      data.foldl
        (fun acc rawLine =>
          bmLineLoop [] (pstrip rawLine) (good_suffix_table [])
            ((pstrip rawLine).length + ([] : Str).length + 2)
            ((([] : Str).length : Int) - 1) acc)
        acc =
      acc ++ (data.map pstrip).flatMap
        (fun line => List.replicate (line.length + 1) line) := by
  induction data with
  | nil => intro acc; simp
  | cons raw rest ih =>
    intro acc
    rw [List.foldl_cons]
    have hline := bmLineLoop_empty (pstrip raw) (good_suffix_table [])
      ((pstrip raw).length + ([] : Str).length + 2)
      ((([] : Str).length : Int) - 1) acc (by simp)
    rw [show ((((pstrip raw).length : Int)) - ((([] : Str).length : Int) - 1)).toNat =
          (pstrip raw).length + 1 from by simp] at hline
    rw [hline, ih, List.map_cons, List.flatMap_cons, List.append_assoc]

/-- C4 (amended), Boyer-Moore part: with the empty query every stripped
line of length `n` is returned exactly `n + 1` times. -/
theorem boyer_moore_search_empty_query (data : List Str) :
    boyer_moore_search data [] =
      (data.map pstrip).flatMap (fun line => List.replicate (line.length + 1) line) := by
  unfold boyer_moore_search
  rw [bm_empty_fold data [], List.nil_append]

/-- C4 (amended), Rabin-Karp part: the empty-query branch returns every
stripped line of length `n` exactly `n + 1` times. -/
theorem rabin_karp_search_empty_query (data : List Str) :
    rabin_karp_search data [] =
      (data.map pstrip).flatMap (fun line => List.replicate (line.length + 1) line) := rfl

/-- With the empty pattern the KMP text loop returns the accumulator
unchanged on an empty line and raises `IndexError` (`none`) on a non-empty
line (`query[0]` is out of range). -/
theorem kmpLineLoop_empty_pattern (line : Str) (lps : List Nat) (fuel : Nat)
    (acc : List Str) (hfuel : 1 ≤ fuel) :
    kmpLineLoop [] line lps fuel 0 0 acc =
      if line.length = 0 then some acc else none := by
  obtain ⟨f, rfl⟩ : ∃ f, fuel = f + 1 := ⟨fuel - 1, by omega⟩
  unfold kmpLineLoop
  by_cases hl : 0 < line.length
  · rw [if_pos hl, if_neg (by omega : ¬ line.length = 0),
      show kmpStep [] line lps 0 0 = none from rfl]
  · rw [if_neg hl, if_pos (by omega : line.length = 0)]

/-- C4 (amended), KMP part: the empty query makes `kmp_search` raise
`IndexError` (modelled as `none`) as soon as some stripped line is
non-empty. -/
theorem kmp_search_empty_query :
    ∀ (data : List Str), (∃ line ∈ data, pstrip line ≠ []) →
      kmp_search data [] = none := by
  intro data
  induction data with
  | nil => intro h; simp at h
  | cons raw rest ih =>
    intro h
    unfold kmp_search
    rw [List.foldlM_cons]
    rw [kmpLineLoop_empty_pattern (pstrip raw) (compute_lps []) _ []
      (Nat.le_add_left 1 _)]
    by_cases hemp : (pstrip raw).length = 0
    · rw [if_pos hemp]
      have hrest : ∃ line ∈ rest, pstrip line ≠ [] := by
        rcases h with ⟨line, hmem, hne⟩
        rcases List.mem_cons.1 hmem with rfl | hmem'
        · exact absurd (List.eq_nil_of_length_eq_zero hemp) hne
        · exact ⟨line, hmem', hne⟩
      have htail := ih hrest
      unfold kmp_search at htail
      simpa using htail
    · rw [if_neg hemp]
      rfl

/-- C4, amended: `naive_search` and `binary_search` match the empty query
only against empty-content lines (every returned entry is the empty
string); the substring family does not satisfy this: with the empty query,
`boyer_moore_search` and `rabin_karp_search` return every stripped line of
length `n` exactly `n + 1` times, including non-empty lines, and
`kmp_search` raises `IndexError` (modelled as `none`) whenever some
stripped line is non-empty. -/
theorem C4_empty_query_amended :
    (∀ (data : List Str) (l : Str), l ∈ naive_search data [] → l = []) ∧
    (∀ (data : List Str) (l : Str), l ∈ binary_search data [] → l = []) ∧
    (∀ data : List Str, boyer_moore_search data [] =
      (data.map pstrip).flatMap (fun line => List.replicate (line.length + 1) line)) ∧
    (∀ data : List Str, rabin_karp_search data [] =
      (data.map pstrip).flatMap (fun line => List.replicate (line.length + 1) line)) ∧
    (∀ data : List Str, (∃ line ∈ data, pstrip line ≠ []) →
      kmp_search data [] = none) := by
  refine ⟨?_, ?_, boyer_moore_search_empty_query, rabin_karp_search_empty_query,
    kmp_search_empty_query⟩
  · intro data l h
    exact naive_search_sound data [] l h
  · intro data l h
    exact binary_search_sound data [] l h

/-- Evaluation of `binary_search` at a dataset whose single line strips to
the empty string (`mergeSort` is defined by well-founded recursion, so this
is proved through its `singleton` equation rather than by kernel
reduction). -/
theorem binary_search_singleton_space : binary_search [[' ']] [] = [([] : Str)] := by
  unfold binary_search
  rw [show ([[' ']] : List Str).map pstrip = [([] : Str)] from rfl,
    List.mergeSort_singleton]
  rfl

/-- Witness for `C4_empty_query_amended`: the naive/binary conjuncts are
applied at a dataset where the empty query genuinely matches (the line
`" "` strips to the empty string, so the membership hypotheses are true),
and the substring-family conjuncts at the non-empty dataset `["a"]`. -/
theorem C4_empty_query_amended_witness :
    (([] : Str) = [] ∧ ([] : Str) = []) ∧
    boyer_moore_search [['a']] [] = [['a'], ['a']] ∧
    rabin_karp_search [['a']] [] = [['a'], ['a']] ∧
    kmp_search [['a']] [] = none :=
  ⟨⟨C4_empty_query_amended.1 [[' ']] [] (by decide),
    C4_empty_query_amended.2.1 [[' ']] []
      (by rw [binary_search_singleton_space]; decide)⟩,
   (C4_empty_query_amended.2.2.1 [['a']]).trans (by decide),
   (C4_empty_query_amended.2.2.2.1 [['a']]).trans (by decide),
   C4_empty_query_amended.2.2.2.2 [['a']] ⟨['a'], by decide, by decide⟩⟩

/-! ### C10: the termination mechanisms of the searchers -/

/-- A successful `List.lookup` yields a value stored in the list. -/
theorem lookup_some_mem_value {l : List (Char × Int)} {a : Char} {v : Int}
    (h : l.lookup a = some v) : ∃ k, (k, v) ∈ l := by
  induction l with
  | nil => simp at h
  | cons p es ih =>
    rcases p with ⟨k, b⟩
    rw [List.lookup_cons] at h
    cases hak : a == k with
    | true =>
      rw [hak] at h
      simp only [Option.some.injEq] at h
      exact ⟨k, by simp [h]⟩
    | false =>
      rw [hak] at h
      rcases ih h with ⟨k', hmem⟩
      exact ⟨k', List.mem_cons_of_mem _ hmem⟩

/-- For a non-empty pattern, every bad-character shift is at least 1: the
stored values are `len(pattern) - 1 - i` with `i ≤ len(pattern) - 2`, and
the dict default is `len(pattern) ≥ 1`. -/
theorem bad_char_get_pos (pattern : Str) (hp : pattern ≠ []) (c : Char) :
    1 ≤ bad_char_get pattern c (pattern.length : Int) := by
  have hlen : 1 ≤ pattern.length := List.length_pos.2 hp
  unfold bad_char_get
  cases hl : ((bad_char_pairs pattern).reverse).lookup c with
  | none =>
    simp only [Option.getD_none]
    exact_mod_cast hlen
  | some v =>
    simp only [Option.getD_some]
    rcases lookup_some_mem_value hl with ⟨k, hmem⟩
    rw [List.mem_reverse] at hmem
    unfold bad_char_pairs at hmem
    rcases List.mem_map.1 hmem with ⟨idx, hidx, heq⟩
    rw [List.mem_range] at hidx
    have hv : v = (pattern.length : Int) - 1 - idx := by
      have := congrArg Prod.snd heq
      simpa using this.symm
    rw [hv]
    omega

/-- One step of the `kmp_search` text loop either strictly advances the
text index or keeps it and strictly decreases the failure index, provided
the failure table is bounded by its index (`compute_lps_bound`). -/
theorem kmpStep_progress (query line : Str) (lps : List Nat) (i j i2 j2 : Nat)
    (app : Bool) (hj : j < query.length) (hi : i < line.length)
    (hlps : ∀ t, lps.getD t 0 ≤ t)
    (hstep : kmpStep query line lps i j = some (i2, j2, app)) :
    i < i2 ∨ (i2 = i ∧ j2 < j) := by
  unfold kmpStep at hstep
  rw [List.get?_eq_get hj, List.get?_eq_get hi] at hstep
  simp only [Option.bind_eq_bind, Option.some_bind] at hstep
  by_cases hc : query.get ⟨j, hj⟩ = line.get ⟨i, hi⟩
  · rw [if_pos hc, if_pos hc] at hstep
    -- the text index became `i + 1`; every reachable outcome keeps it ≥ i+1
    split at hstep
    · cases hnj : lps.get? (j + 1 - 1) with
      | none => rw [hnj] at hstep; simp at hstep
      | some nj =>
        rw [hnj] at hstep
        simp only [Option.bind_eq_bind, Option.some_bind, Option.pure_def, Option.some.injEq, Prod.mk.injEq] at hstep
        left; omega
    · split at hstep
      · cases hq1 : query.get? (j + 1) with
        | none => rw [hq1] at hstep; simp at hstep
        | some qc1 =>
          rw [hq1] at hstep
          cases hl1 : line.get? (i + 1) with
          | none => rw [hl1] at hstep; simp at hstep
          | some lc1 =>
            rw [hl1] at hstep
            simp only [Option.bind_eq_bind, Option.some_bind] at hstep
            split at hstep
            · split at hstep
              · cases hnj : lps.get? (j + 1 - 1) with
                | none => rw [hnj] at hstep; simp at hstep
                | some nj =>
                  rw [hnj] at hstep
                  simp only [Option.bind_eq_bind, Option.some_bind, Option.pure_def, Option.some.injEq, Prod.mk.injEq] at hstep
                  left; omega
              · simp only [Option.pure_def, Option.some.injEq, Prod.mk.injEq] at hstep
                left; omega
            · simp only [Option.pure_def, Option.some.injEq, Prod.mk.injEq] at hstep
              left; omega
      · simp only [Option.pure_def, Option.some.injEq, Prod.mk.injEq] at hstep
        left; omega
  · rw [if_neg hc, if_neg hc, if_neg (Nat.ne_of_lt hj), if_pos hi] at hstep
    rw [List.get?_eq_get hj, List.get?_eq_get hi] at hstep
    simp only [Option.bind_eq_bind, Option.some_bind] at hstep
    rw [if_pos hc] at hstep
    by_cases hj0 : j = 0
    · rw [if_neg (by simp [hj0])] at hstep
      simp only [Option.pure_def, Option.some.injEq, Prod.mk.injEq] at hstep
      left; omega
    · rw [if_pos (by simpa using hj0)] at hstep
      cases hnj : lps.get? (j - 1) with
      | none => rw [hnj] at hstep; simp at hstep
      | some nj =>
        rw [hnj] at hstep
        simp only [Option.bind_eq_bind, Option.some_bind, Option.pure_def, Option.some.injEq, Prod.mk.injEq] at hstep
        have hbound := hlps (j - 1)
        rw [List.getD_eq_get?, hnj] at hbound
        simp only [Option.getD_some] at hbound
        right
        constructor
        · omega
        · omega

/-- The extension loop only moves `r` forward. -/
theorem zExtendLoop_le (s : Str) (l : Nat) :
    ∀ (fuel r : Nat), r ≤ zExtendLoop s l fuel r := by
  intro fuel
  induction fuel with
  | zero => intro r; exact le_refl r
  | succ n ih =>
    intro r
    unfold zExtendLoop
    split
    · exact le_trans (Nat.le_succ r) (ih (r + 1))
    · exact le_refl r

/-- The extension loop never leaves the string. -/
theorem zExtendLoop_le_length (s : Str) (l : Nat) :
    ∀ (fuel r : Nat), r ≤ s.length → zExtendLoop s l fuel r ≤ s.length := by
  intro fuel
  induction fuel with
  | zero => intro r h; exact h
  | succ n ih =>
    intro r h
    unfold zExtendLoop
    split
    · rename_i hcond
      exact ih (r + 1) (by omega)
    · exact h

/-- Every position passed by the extension loop matches the position
shifted left by `l`. -/
theorem zExtendLoop_matches (s : Str) (l : Nat) :
    ∀ (fuel r p : Nat), r ≤ p → p < zExtendLoop s l fuel r →
      s.getD p default = s.getD (p - l) default := by
  intro fuel
  induction fuel with
  | zero => intro r p hrp hp; unfold zExtendLoop at hp; omega
  | succ n ih =>
    intro r p hrp hp
    unfold zExtendLoop at hp
    split at hp
    · rename_i hcond
      rcases Nat.eq_or_lt_of_le hrp with rfl | hlt
      · exact hcond.2
      · exact ih (r + 1) p hlt hp
    · omega

/-- `r ≤ zExtend s l r`. -/
theorem zExtend_ge (s : Str) (l r : Nat) : r ≤ zExtend s l r :=
  zExtendLoop_le s l _ r

/-- `zExtend` stays within the string. -/
theorem zExtend_le_length (s : Str) (l r : Nat) (h : r ≤ s.length) :
    zExtend s l r ≤ s.length :=
  zExtendLoop_le_length s l _ r h

/-- Positions inside the extension match the prefix-shifted positions. -/
theorem zExtend_matches (s : Str) (l r p : Nat) (hrp : r ≤ p)
    (hp : p < zExtend s l r) : s.getD p default = s.getD (p - l) default :=
  zExtendLoop_matches s l _ r p hrp hp

/-- If the first comparison of the extension loop succeeds, the extension
advances at least one position. -/
theorem zExtend_ge_succ (s : Str) (l r : Nat) (hr : r < s.length)
    (hm : s.getD r default = s.getD (r - l) default) :
    r + 1 ≤ zExtend s l r := by
  unfold zExtend
  rw [show s.length - r = (s.length - r - 1) + 1 from by omega]
  unfold zExtendLoop
  rw [if_pos ⟨hr, hm⟩]
  exact zExtendLoop_le s l _ (r + 1)

/-- `getD` after `set`: either the old value, or the index hit the write. -/
theorem getD_set_cases (z : List Nat) (i v t : Nat) :
    (z.set i v).getD t 0 = z.getD t 0 ∨ (t = i ∧ (z.set i v).getD t 0 = v) := by
  by_cases ht : t = i
  · subst ht
    by_cases hlen : t < z.length
    · right
      refine ⟨rfl, ?_⟩
      rw [List.getD_eq_getElem _ _ (by simpa using hlen)]
      exact List.getElem_set_self (by simpa using hlen)
    · left
      rw [List.set_eq_of_length_le (by omega)]
  · left
    by_cases hlen : t < z.length
    · rw [List.getD_eq_getElem _ _ (by simpa using hlen),
        List.getElem_set_ne (by omega), ← List.getD_eq_getElem _ 0 hlen]
    · rw [List.getD_eq_get?, List.getD_eq_get?,
        List.get?_eq_none.2 (by simpa using not_lt.1 hlen),
        List.get?_eq_none.2 (by omega)]

/-- `getD` on an all-zero list is `0`. -/
theorem getD_replicate_zero (n j : Nat) :
    (List.replicate n (0 : Nat)).getD j 0 = 0 := by
  rw [List.getD_eq_get?]
  cases h : (List.replicate n (0 : Nat)).get? j with
  | none => rfl
  | some v =>
    have := List.get?_mem h
    rw [List.eq_of_mem_replicate this]
    rfl

/-- Loop invariant of `calculate_z_array` holding just before the iteration
that processes index `i`: the window start `st.1 = l` never exceeds `i`,
the scan bound `st.2.1 = r` stays inside the string, the window `[l, r]`
matches the string's prefix, and every stored Z-value is sound (the string
matches its prefix for that many characters at that position). -/
def ZStateInv (s : Str) (st : Nat × Nat × List Nat) (i : Nat) : Prop :=
  st.1 ≤ i ∧ st.2.1 < s.length ∧
  (∀ t, st.1 + t ≤ st.2.1 → s.getD (st.1 + t) default = s.getD t default) ∧
  (∀ j t, t < st.2.2.getD j 0 → s.getD (j + t) default = s.getD t default)


/-- Each iteration of the `calculate_z_array` loop preserves the invariant
and never moves the scan bound `r` backward. -/
theorem zStep_preserves (s : Str) (st : Nat × Nat × List Nat) (i : Nat)
    (h1 : 1 ≤ i) (h2 : i < s.length) (hinv : ZStateInv s st i) :
    ZStateInv s (zStep s st i) (i + 1) ∧ st.2.1 ≤ (zStep s st i).2.1 := by
  obtain ⟨hli, hr, hwin, hsound⟩ := hinv
  by_cases hgt : i > st.2.1
  · have hz : zStep s st i =
        (i, zExtend s i i - 1, st.2.2.set i (zExtend s i i - i)) := by
      unfold zStep; rw [if_pos hgt]
    rw [hz]
    have hge : i ≤ zExtend s i i := zExtend_ge s i i
    have hlen : zExtend s i i ≤ s.length := zExtend_le_length s i i (by omega)
    refine ⟨⟨show i ≤ i + 1 by omega, show zExtend s i i - 1 < s.length by omega,
      show ∀ t, i + t ≤ zExtend s i i - 1 →
        s.getD (i + t) default = s.getD t default from ?_,
      show ∀ j t, t < (st.2.2.set i (zExtend s i i - i)).getD j 0 →
        s.getD (j + t) default = s.getD t default from ?_⟩,
      show st.2.1 ≤ zExtend s i i - 1 by omega⟩
    · intro t ht
      have hmatch := zExtend_matches s i i (i + t) (by omega) (by omega)
      rw [show i + t - i = t from by omega] at hmatch
      exact hmatch
    · intro j t ht
      rcases getD_set_cases st.2.2 i (zExtend s i i - i) j with hold | ⟨heq, hnew⟩
      · rw [hold] at ht
        exact hsound j t ht
      · rw [hnew] at ht
        rw [heq]
        have hmatch := zExtend_matches s i i (i + t) (by omega) (by omega)
        rw [show i + t - i = t from by omega] at hmatch
        exact hmatch
  · push_neg at hgt
    by_cases hsmall : st.2.2.getD (i - st.1) 0 < st.2.1 - i + 1
    · have hz : zStep s st i =
          (st.1, st.2.1, st.2.2.set i (st.2.2.getD (i - st.1) 0)) := by
        unfold zStep; rw [if_neg (by omega), if_pos hsmall]
      rw [hz]
      refine ⟨⟨show st.1 ≤ i + 1 by omega, show st.2.1 < s.length from hr,
        show ∀ t, st.1 + t ≤ st.2.1 →
          s.getD (st.1 + t) default = s.getD t default from hwin,
        show ∀ j t, t < (st.2.2.set i (st.2.2.getD (i - st.1) 0)).getD j 0 →
          s.getD (j + t) default = s.getD t default from ?_⟩,
        show st.2.1 ≤ st.2.1 from le_refl _⟩
      intro j t ht
      rcases getD_set_cases st.2.2 i (st.2.2.getD (i - st.1) 0) j with hold | ⟨heq, hnew⟩
      · rw [hold] at ht
        exact hsound j t ht
      · rw [hnew] at ht
        rw [heq]
        have hw := hwin ((i - st.1) + t) (by omega)
        rw [show st.1 + ((i - st.1) + t) = i + t from by omega] at hw
        have hs := hsound (i - st.1) t ht
        rw [hw]
        exact hs
    · have hz : zStep s st i =
          (i, zExtend s i st.2.1 - 1, st.2.2.set i (zExtend s i st.2.1 - i)) := by
        unfold zStep; rw [if_neg (by omega), if_neg hsmall]
      rw [hz]
      push_neg at hsmall
      have hchain : ∀ u, u ≤ st.2.1 - i →
          s.getD (i + u) default = s.getD u default := by
        intro u hu
        have hw := hwin ((i - st.1) + u) (by omega)
        rw [show st.1 + ((i - st.1) + u) = i + u from by omega] at hw
        have hs := hsound (i - st.1) u (by omega)
        rw [hw]
        exact hs
      have hfirst : s.getD st.2.1 default = s.getD (st.2.1 - i) default := by
        have hc := hchain (st.2.1 - i) (le_refl _)
        rw [show i + (st.2.1 - i) = st.2.1 from by omega] at hc
        exact hc
      have hext : st.2.1 + 1 ≤ zExtend s i st.2.1 :=
        zExtend_ge_succ s i st.2.1 hr hfirst
      have hlen : zExtend s i st.2.1 ≤ s.length :=
        zExtend_le_length s i st.2.1 (by omega)
      have hwin' : ∀ t, i + t ≤ zExtend s i st.2.1 - 1 →
          s.getD (i + t) default = s.getD t default := by
        intro t ht
        rcases le_or_lt t (st.2.1 - i) with hcase | hcase
        · exact hchain t hcase
        · have hmatch := zExtend_matches s i st.2.1 (i + t) (by omega) (by omega)
          rw [show i + t - i = t from by omega] at hmatch
          exact hmatch
      refine ⟨⟨show i ≤ i + 1 by omega,
        show zExtend s i st.2.1 - 1 < s.length by omega,
        show ∀ t, i + t ≤ zExtend s i st.2.1 - 1 →
          s.getD (i + t) default = s.getD t default from hwin',
        show ∀ j t, t < (st.2.2.set i (zExtend s i st.2.1 - i)).getD j 0 →
          s.getD (j + t) default = s.getD t default from ?_⟩,
        show st.2.1 ≤ zExtend s i st.2.1 - 1 by omega⟩
      intro j t ht
      rcases getD_set_cases st.2.2 i (zExtend s i st.2.1 - i) j with hold | ⟨heq, hnew⟩
      · rw [hold] at ht
        exact hsound j t ht
      · rw [hnew] at ht
        rw [heq]
        exact hwin' t (by omega)

/-- The state of the `calculate_z_array` loop after processing indices
`1, ..., k`. -/
def zState (s : Str) (k : Nat) : Nat × Nat × List Nat :=
  (List.range' 1 k).foldl (zStep s) (0, 0, List.replicate s.length 0)

/-- `calculate_z_array` is the Z-table of the final loop state. -/
theorem calculate_z_array_eq_zState (s : Str) :
    calculate_z_array s = (zState s (s.length - 1)).2.2 := rfl

/-- Unfolding one more iteration of the loop. -/
theorem zState_succ (s : Str) (k : Nat) :
    zState s (k + 1) = zStep s (zState s k) (k + 1) := by
  unfold zState
  rw [List.range'_concat, List.foldl_append]
  simp [Nat.add_comm 1 k]

/-- The loop invariant holds at every state of the `calculate_z_array`
fold. -/
theorem zState_inv (s : Str) (h0 : 0 < s.length) :
    ∀ k, k ≤ s.length - 1 → ZStateInv s (zState s k) (k + 1) := by
  intro k
  induction k with
  | zero =>
    intro _
    refine ⟨Nat.zero_le 1, h0, ?_, ?_⟩
    · intro t ht
      have ht' : 0 + t ≤ 0 := ht
      have ht0 : t = 0 := by omega
      subst ht0
      rfl
    · intro j t ht
      have ht' : t < (List.replicate s.length 0).getD j 0 := ht
      rw [getD_replicate_zero] at ht'
      omega
  | succ k ih =>
    intro hk
    rw [zState_succ]
    exact (zStep_preserves s (zState s k) (k + 1) (by omega) (by omega)
      (ih (by omega))).1

/-- Along the `calculate_z_array` fold the scan bound `r` never moves
backward. -/
theorem zState_r_mono (s : Str) (k : Nat) (hk : k + 1 ≤ s.length - 1) :
    (zState s k).2.1 ≤ (zState s (k + 1)).2.1 := by
  have h0 : 0 < s.length := by omega
  rw [zState_succ]
  exact (zStep_preserves s (zState s k) (k + 1) (by omega) (by omega)
    (zState_inv s h0 k (by omega))).2

/-- C10: the mechanisms that make every search loop terminate.
(i) For a non-empty query, every Boyer-Moore shift
`max(good_suffix[len(query)-1-j], bad_char.get(line[i], len(query)))` is at
least 1 (the bad-character entries are `len-1-i ≥ 1` and the dict default
is `len ≥ 1`).
(ii) The failure table computed by `compute_lps` is bounded by its index.
(iii) A step of the KMP text loop (executed while `i < len(line)`, with a
bounded failure table and `j < len(query)`) strictly advances the text
index or keeps it while strictly decreasing the failure index.
(iv) Along the `calculate_z_array` fold the scan index `r` never moves
backward. -/
theorem C10_termination_mechanisms :
    (∀ (query : Str) (c : Char) (k : Nat), query ≠ [] →
        1 ≤ max ((good_suffix_table query).getD k 0)
              (bad_char_get query c (query.length : Int))) ∧
    (∀ (pattern : Str) (t : Nat), (compute_lps pattern).getD t 0 ≤ t) ∧
    (∀ (query line : Str) (lps : List Nat) (i j i2 j2 : Nat) (app : Bool),
        j < query.length → i < line.length → (∀ t, lps.getD t 0 ≤ t) →
        kmpStep query line lps i j = some (i2, j2, app) →
        i < i2 ∨ (i2 = i ∧ j2 < j)) ∧
    (∀ (s : Str) (k : Nat), k + 1 ≤ s.length - 1 →
        (zState s k).2.1 ≤ (zState s (k + 1)).2.1) := by
  refine ⟨?_, ?_, ?_, ?_⟩
  · intro query c k hq
    exact le_max_of_le_right (bad_char_get_pos query hq c)
  · intro pattern t
    exact compute_lps_bound pattern t
  · intro query line lps i j i2 j2 app hj hi hlps hstep
    exact kmpStep_progress query line lps i j i2 j2 app hj hi hlps hstep
  · intro s k hk
    exact zState_r_mono s k hk

/-- Witness for `C10_termination_mechanisms` at concrete inputs: the
Boyer-Moore shift for pattern `"ab"`, the failure table of `"aba"`, one
mismatching KMP step on pattern `"a"` and text `"b"`, and one iteration of
the Z-array loop on `"abc"`. -/
theorem C10_termination_mechanisms_witness :
    (1 ≤ max ((good_suffix_table ['a','b']).getD 0 0)
          (bad_char_get ['a','b'] 'x' (((['a','b'] : Str).length : Int)))) ∧
    (compute_lps ['a','b','a']).getD 2 0 ≤ 2 ∧
    (0 < 1 ∨ (1 = 0 ∧ 0 < 0)) ∧
    (zState ['a','b','c'] 1).2.1 ≤ (zState ['a','b','c'] 2).2.1 :=
  ⟨C10_termination_mechanisms.1 ['a','b'] 'x' 0 (by decide),
   C10_termination_mechanisms.2.1 ['a','b','a'] 2,
   C10_termination_mechanisms.2.2.1 ['a'] ['b'] [0] 0 0 1 0 false
     (by decide) (by decide)
     (fun t => by
       rcases t with _ | t
       · decide
       · rw [List.getD_eq_get?]
         simp)
     (by rfl),
   C10_termination_mechanisms.2.2.2 ['a','b','c'] 1 (by decide)⟩
